import Mathlib

/-!
Verification of `mure` (`src/mure/iterator.py`): a bounded-concurrency
request scheduler that delivers responses to a single consumer in
submission-index order.

The embedding models the cooperative (single event loop) execution of
`ResponseIterator` at suspension-point granularity:

* `IterState` holds the iterator state: the lazy task generator position
  (`nextTask`, mirroring `_create_tasks`), the active task set `_tasks`
  (`active`), the priority queue `_queue` (`queue`, a list of
  `(priority, response)` pairs popped by minimal priority), the
  per-index completion events (`events`, the set of indices whose
  `Event` is set), and `pending`.
* A task's completion (`completeOne`) mirrors the tail of
  `_aprocess_request`: push `(priority, response)` into the queue, set
  the event, and remove the task from the active set (its done
  callback).
* `processBatch` mirrors `_process_batch`, `waitEvent` mirrors
  `await event.wait()` (while the consumer is suspended, an arbitrary
  active task — chosen by the adversarial schedule `sched` — runs to
  completion), and `consumeLoop`/`runIterator` mirror
  `_afetch_responses`.

The fields `maxActive`, `popped`, `yielded` and `pendingTrace` are
observation fields: they record, respectively, the largest size the
active set ever reaches, the pairs returned by the queue pops, the
responses yielded to the consumer, and the value of `pending` after
each yield.  They are write-only instrumentation and never influence
control flow.

`aprocessTrace` is a separate, finer-grained model of the body of
`_aprocess_request` as the sequence of collaborator actions it
performs (cache calls, lock acquire/release, fetch, queue put, event
set), and `afetch` models `_afetch` with the transport abstracted as a
`FetchOutcome`.
-/

namespace Mure

/-- Modelled from the spec (the `mure.models` module is not part of the
given sources): a `Response` value — status code (0 means the request
never reached the server), reason phrase, ok flag, decoded body text,
and final resolved url. -/
structure Response where
  status : Nat
  reason : String
  ok : Bool
  text : String
  url : String
deriving DecidableEq, Repr

/-- State of a `ResponseIterator` run, at suspension-point granularity. -/
structure IterState (R : Type) where
  /-- position of the lazy `_create_tasks` generator: tasks `0 .. nextTask-1`
  have been created, in index order. -/
  nextTask : Nat
  /-- indices of the created, not yet completed tasks (`self._tasks`). -/
  active : List Nat
  /-- the priority queue `self._queue`: `(priority, response)` pairs. -/
  queue : List (Nat × R)
  /-- indices whose completion `Event` has been set. -/
  events : List Nat
  /-- `self.pending`. -/
  pending : Nat
  /-- observation: largest size `active` ever reached. -/
  maxActive : Nat
  /-- observation: the pairs returned by `self._queue.get()`, in order. -/
  popped : List (Nat × R)
  /-- observation: the responses yielded to the consumer, in order. -/
  yielded : List R
  /-- observation: value of `pending` recorded after each yield. -/
  pendingTrace : List Nat

/-- The state right after `__init__` builds the bookkeeping for `N`
requests: no task created, empty queue, no event set, `pending = N`. -/
def initState (R : Type) (N : Nat) : IterState R :=
  { nextTask := 0, active := [], queue := [], events := [], pending := N,
    maxActive := 0, popped := [], yielded := [], pendingTrace := [] }

/-- One step of the lazy `_create_tasks` generator: create the task with
the next index and add it to the active set (`self._tasks.add(task)`). -/
def addTask {R : Type} (st : IterState R) : IterState R :=
  { st with nextTask := st.nextTask + 1,
            active := st.active ++ [st.nextTask],
            maxActive := max st.maxActive (st.active.length + 1) }

/-- The loop body of `_process_batch`: pull tasks from the generator one
by one; after each add, stop as soon as `len(self._tasks) >= self.batch_size`;
stop when the generator is exhausted (`nextTask = N`).  Structural fuel
replaces the generator's finiteness (fuel `N` always suffices). -/
def processBatchGo (B : Int) (N : Nat) : Nat → IterState R → IterState R
  | 0, st => st
  | fuel + 1, st =>
      if st.nextTask < N then
        let st' := addTask st
        if B ≤ (st'.active.length : Int) then st'
        else processBatchGo B N fuel st'
      else st

/-- `_process_batch`: only enter the fill loop under the guard
`len(self._tasks) < self.batch_size`. -/
def processBatch (B : Int) (N : Nat) (st : IterState R) : IterState R :=
  if (st.active.length : Int) < B then processBatchGo B N N st else st

/-- The task picked by the schedule choice `k`: an arbitrary member of
the active set (the event loop may run any active task next). -/
def pickTask {R : Type} (st : IterState R) (k : Nat) : Nat :=
  st.active.getD (k % st.active.length) 0

/-- Completion of one active task `i` (chosen by the schedule): the tail
of `_aprocess_request` pushes `(i, result i)` into the priority queue and
then sets event `i`; the task's done callback removes it from
`self._tasks`. -/
def completeOne {R : Type} (result : Nat → R) (k : Nat) (st : IterState R) :
    IterState R :=
  let i := pickTask st k
  { st with queue := st.queue ++ [(i, result i)],
            events := i :: st.events,
            active := st.active.erase i }

/-- `await event.wait()` for index `i`: if the event is already set,
return immediately; otherwise the consumer suspends and the event loop
runs active tasks to completion, one per step, chosen by `sched`; `none`
means no progress is possible (deadlock) or fuel ran out. -/
def waitEvent {R : Type} (result : Nat → R) (sched : Nat → Nat) (i : Nat) :
    Nat → Nat → IterState R → Option (Nat × IterState R)
  | 0, _, _ => none
  | fuel + 1, t, st =>
      if i ∈ st.events then some (t, st)
      else if st.active.isEmpty then none
      else waitEvent result sched i fuel (t + 1) (completeOne result (sched t) st)

/-- Pop the minimum-priority entry from the queue (`PriorityQueue.get`):
returns the entry with the smallest first component and the remaining
entries. -/
def popMin {R : Type} : List (Nat × R) → Option ((Nat × R) × List (Nat × R))
  | [] => none
  | e :: es =>
      match popMin es with
      | none => some (e, [])
      | some (m, rest) => if e.1 ≤ m.1 then some (e, es) else some (m, e :: rest)

/-- The `for event in self._events` loop of `_afetch_responses`:
for each index, wait on its event (running tasks meanwhile), refill the
batch, pop the minimum entry from the queue, refill again, yield the
response and decrement `pending`. -/
def consumeLoop {R : Type} (B : Int) (N : Nat) (result : Nat → R)
    (sched : Nat → Nat) (fuel : Nat) :
    List Nat → Nat → IterState R → Option (IterState R)
  | [], _, st => some st
  | i :: rest, t, st =>
      match waitEvent result sched i fuel t st with
      | none => none
      | some (t1, st1) =>
          let st2 := processBatch B N st1
          match popMin st2.queue with
          | none => none
          | some (e, q) =>
              let st3 := processBatch B N
                { st2 with queue := q, popped := st2.popped ++ [e] }
              let st4 := { st3 with
                yielded := st3.yielded ++ [e.2],
                pending := st3.pending - 1,
                pendingTrace := st3.pendingTrace ++ [st3.pending - 1] }
              consumeLoop B N result sched fuel rest t1 st4

/-- A whole run of `_afetch_responses` over `N` requests with
concurrency bound `B`: build the initial state, process the first
batch, then run the consumption loop over indices `0 .. N-1`.
`result i` is the response task `i` computes (cache or fetch), `sched`
is the adversarial completion schedule. -/
def runIterator {R : Type} (B : Int) (N : Nat) (result : Nat → R)
    (sched : Nat → Nat) (fuel : Nat) : Option (IterState R) :=
  consumeLoop B N result sched fuel (List.range N) 0
    (processBatch B N (initState R N))

/-- The fields `__init__` assigns that the claims mention: it stores the
request count, initializes `pending` to it, and stores `batch_size`
unchanged — it performs no validation. -/
structure InitFields where
  num_requests : Nat
  pending : Nat
  batch_size : Int
deriving DecidableEq, Repr

/-- `ResponseIterator.__init__`: a total function — the constructor only
assigns fields and never raises, whatever `batch_size` is. -/
def mkResponseIterator {α : Type} (requests : List α) (batch_size : Int) :
    InitFields :=
  { num_requests := requests.length, pending := requests.length,
    batch_size := batch_size }

/-- The declared default of the `batch_size` keyword parameter
(`batch_size: int = 5`). -/
def defaultBatchSize : Int := 5

/-- Construction without an explicit concurrency bound uses the declared
default. -/
def mkResponseIteratorDefault {α : Type} (requests : List α) : InitFields :=
  mkResponseIterator requests defaultBatchSize

/-!  Fine-grained model of the body of `_aprocess_request`: the ordered
sequence of collaborator actions one task performs. -/

/-- One observable action of a task: a cache call, taking or releasing
the iterator's lock, the network fetch, the queue push, the event set. -/
inductive TaskAction (R : Type) where
  | cacheHas
  | cacheGet
  | cacheSet (resp : R)
  | lockAcquire
  | lockRelease
  | fetchCall
  | queuePut (priority : Nat) (resp : R)
  | eventSet (priority : Nat)
deriving DecidableEq, Repr

/-- Whether an action is one of the three cache-gateway calls. -/
def TaskAction.isCacheCall {R : Type} : TaskAction R → Bool
  | .cacheHas => true
  | .cacheGet => true
  | .cacheSet _ => true
  | _ => false

/-- The action sequence of `_aprocess_request` for task `i`, translated
line by line: if a cache is given and `has` (called outside the lock)
returns true, `get` runs under the lock; otherwise `_afetch` runs and,
if a cache is given, `set` runs under the lock; then the
`(priority, response)` pair is pushed into the queue, and finally the
event is set.  `cached` is what `cache.get` would return, `fetched`
what `_afetch` returns. -/
def aprocessTrace {R : Type} (hasCache hit : Bool) (cached fetched : R)
    (i : Nat) : List (TaskAction R) :=
  if hasCache && hit then
    [.cacheHas, .lockAcquire, .cacheGet, .lockRelease,
     .queuePut i cached, .eventSet i]
  else if hasCache then
    [.cacheHas, .fetchCall, .lockAcquire, .cacheSet fetched, .lockRelease,
     .queuePut i fetched, .eventSet i]
  else
    [.fetchCall, .queuePut i fetched, .eventSet i]

/-- The response `_aprocess_request` ends up pushing for task `i`:
the cached value on a cache hit, the fetched value otherwise. -/
def aprocessResult {R : Type} (hasCache hit : Bool) (cached fetched : R) : R :=
  if hasCache && hit then cached else fetched

/-- The actions of a trace executed while the mutual-exclusion lock is
held, starting from the given lock state. -/
def lockedActions {R : Type} : List (TaskAction R) → Bool → List (TaskAction R)
  | [], _ => []
  | .lockAcquire :: rest, _ => lockedActions rest true
  | .lockRelease :: rest, _ => lockedActions rest false
  | a :: rest, held => (if held then [a] else []) ++ lockedActions rest held

/-!  Model of `_afetch`: the transport is abstracted as an outcome, the
decoding collaborators as functions. -/

/-- What the transport hands back on a successful exchange: status,
reason, ok flag, raw body bytes (abstract type `β`), the
transport-reported encoding (`None` possible), and the resolved url. -/
structure TransportReply (β : Type) where
  status : Nat
  reason : String
  ok : Bool
  content : β
  encoding : Option String
  url : String

/-- Outcome of the `session.request`/`response.read()` part of
`_afetch`: either a reply, or an exception carrying its stringified
representation (`repr(error)`). -/
inductive FetchOutcome (β : Type) where
  | success (reply : TransportReply β)
  | failure (err : String)

/-- The default encoding name used by the fallback
(`encoding or "utf-8"`). -/
def utf8Name : String := "utf-8"

/-- Stringified `LookupError` raised when a decode is attempted with an
encoding the codec registry does not know. -/
def lookupErrorText (enc : String) : String :=
  let m := "LookupError: unknown encoding: "
  m ++ enc

/-- `content.decode(encoding, errors="replace")`: `none` models the
`TypeError` (encoding is `None`) or `LookupError` (unknown encoding)
paths; with `errors="replace"` a known encoding always yields text.
`knownEnc` is the codec registry, `decodeW` decoding with
replacement-character substitution. -/
def decodeAttempt {β : Type} (knownEnc : String → Bool)
    (decodeW : String → β → String) (encoding : Option String)
    (content : β) : Option String :=
  match encoding with
  | none => none
  | some e => if knownEnc e then some (decodeW e content) else none

/-- The body-decoding chain of `_afetch`: try the transport-reported
encoding; on `LookupError`/`TypeError`, consult `chardet.detect` and
decode with the detected encoding, or with utf-8 when detection yields
nothing; an unknown detected encoding makes this second decode raise
(`Except.error`), which the outer handler of `_afetch` turns into a
degraded response. -/
def decodeContent {β : Type} (knownEnc : String → Bool)
    (decodeW : String → β → String) (detect : β → Option String)
    (encoding : Option String) (content : β) : Except String String :=
  match decodeAttempt knownEnc decodeW encoding content with
  | some t => Except.ok t
  | none =>
      let d := (detect content).getD utf8Name
      if knownEnc d then Except.ok (decodeW d content)
      else Except.error (lookupErrorText d)

/-- `_afetch`: on a transport failure return the degraded response
(status 0, ok false, reason the stringified error, empty text and url);
on success decode the body and build the response from the reply: any
decode error also falls into the outer `except Exception` handler and
becomes a degraded response.  The error-logging toggle is observed but
never alters the returned value. -/
def afetch {β : Type} (knownEnc : String → Bool)
    (decodeW : String → β → String) (detect : β → Option String)
    (_logErrors : Bool) (outcome : FetchOutcome β) : Response :=
  match outcome with
  | .failure err =>
      { status := 0, reason := err, ok := false, text := "", url := "" }
  | .success reply =>
      match decodeContent knownEnc decodeW detect reply.encoding reply.content with
      | .ok text =>
          { status := reply.status, reason := reply.reason, ok := reply.ok,
            text := text, url := reply.url }
      | .error e =>
          { status := 0, reason := e, ok := false, text := "", url := "" }

/-- The decoding chain exactly as the specification words it: decode
with the transport-reported encoding; if that encoding is missing or
unknown, decode with the detected encoding; if detection yields
nothing, use utf-8. -/
def decodeContentSpec {β : Type} (knownEnc : String → Bool)
    (decodeW : String → β → String) (detect : β → Option String)
    (encoding : Option String) (content : β) : String :=
  match encoding with
  | some e =>
      if knownEnc e then decodeW e content
      else
        match detect content with
        | some d => decodeW d content
        | none => decodeW utf8Name content
  | none =>
      match detect content with
      | some d => decodeW d content
      | none => decodeW utf8Name content

/-!  The run invariant.  `i` is the consumer position: entries for
indices `< i` have already been popped and yielded. -/

/-- Control-state part of the invariant, at consumer position `i`:
tasks are created in index order; the events set is exactly the set of
completed tasks; the queue holds exactly the completed-but-not-yet-popped
entries, keyed without duplicates and carrying `result`; all indices
`< i` are completed; the active set never exceeds the bound `B`. -/
def CoreInv {R : Type} (B : Int) (N : Nat) (result : Nat → R) (i : Nat)
    (st : IterState R) : Prop :=
  st.nextTask ≤ N ∧
  st.active.Nodup ∧
  (∀ j ∈ st.active, i ≤ j ∧ j < st.nextTask) ∧
  (∀ j, j ∈ st.events ↔ (j < st.nextTask ∧ j ∉ st.active)) ∧
  (st.queue.map Prod.fst).Nodup ∧
  (∀ e ∈ st.queue, e.2 = result e.1 ∧ i ≤ e.1 ∧ e.1 ∈ st.events) ∧
  (∀ j, i ≤ j → j ∈ st.events → (j, result j) ∈ st.queue) ∧
  (∀ j, j < i → j ∈ st.events) ∧
  (st.active.length : Int) ≤ B ∧ (st.maxActive : Int) ≤ B

/-- Full invariant: control state plus the observation fields. -/
def IterInv {R : Type} (B : Int) (N : Nat) (result : Nat → R) (i : Nat)
    (st : IterState R) : Prop :=
  CoreInv B N result i st ∧
  st.pending = N - i ∧
  st.yielded = (List.range i).map result ∧
  st.popped = (List.range i).map (fun j => (j, result j)) ∧
  st.pendingTrace = (List.range i).map (fun k => N - (k + 1))

/-- Post-condition of `_process_batch`: the window is full or the task
generator is exhausted. -/
def BatchFull {R : Type} (B : Int) (N : Nat) (st : IterState R) : Prop :=
  B ≤ (st.active.length : Int) ∨ N ≤ st.nextTask

theorem coreInv_i_le_nextTask {R : Type} {B : Int} {N : Nat} {result : Nat → R}
    {i : Nat} {st : IterState R} (h : CoreInv B N result i st) :
    i ≤ st.nextTask := by
  cases i with
  | zero => exact Nat.zero_le _
  | succ n =>
      have hn : n ∈ st.events := h.2.2.2.2.2.2.2.1 n (Nat.lt_succ_self n)
      have := (h.2.2.2.1 n).mp hn
      omega

theorem coreInv_active_length_le {R : Type} {B : Int} {N : Nat}
    {result : Nat → R} {i : Nat} {st : IterState R}
    (h : CoreInv B N result i st) : st.active.length ≤ N := by
  have hsub : st.active ⊆ List.range N := by
    intro x hx
    have hx' := h.2.2.1 x hx
    exact List.mem_range.mpr (lt_of_lt_of_le hx'.2 h.1)
  have := (List.subperm_of_subset h.2.1 hsub).length_le
  simpa using this

theorem iterInv_init {R : Type} (B : Int) (N : Nat) (result : Nat → R)
    (hB : 0 ≤ B) : IterInv B N result 0 (initState R N) := by
  refine ⟨⟨Nat.zero_le _, List.nodup_nil, ?_, ?_, List.nodup_nil, ?_, ?_, ?_, ?_, ?_⟩,
    rfl, rfl, rfl, rfl⟩ <;> simp [initState] <;> omega

theorem coreInv_addTask {R : Type} {B : Int} {N : Nat} {result : Nat → R}
    {i : Nat} {st : IterState R} (h : CoreInv B N result i st)
    (hlen : (st.active.length : Int) < B) (hnt : st.nextTask < N) :
    CoreInv B N result i (addTask st) := by
  obtain ⟨h1, h2, h3, h4, h5, h6, h7, h8, h9, h10⟩ := h
  have hile : i ≤ st.nextTask := coreInv_i_le_nextTask ⟨h1, h2, h3, h4, h5, h6, h7, h8, h9, h10⟩
  have hnotmem : st.nextTask ∉ st.active := fun hmem => absurd (h3 _ hmem).2 (lt_irrefl _)
  refine ⟨hnt, ?_, ?_, ?_, h5, ?_, ?_, ?_, ?_, ?_⟩
  · simpa [addTask, List.nodup_append] using ⟨h2, hnotmem⟩
  · intro j hj
    simp only [addTask, List.mem_append, List.mem_singleton] at hj
    rcases hj with hj | hj
    · exact ⟨(h3 j hj).1, Nat.lt_succ_of_lt (h3 j hj).2⟩
    · subst hj; exact ⟨hile, Nat.lt_succ_self _⟩
  · intro j
    simp only [addTask, List.mem_append, List.mem_singleton]
    constructor
    · intro hj
      have := (h4 j).mp hj
      exact ⟨Nat.lt_succ_of_lt this.1, by rintro (hja | rfl); exact this.2 hja; omega⟩
    · rintro ⟨hjlt, hjni⟩
      refine (h4 j).mpr ⟨?_, fun hja => hjni (Or.inl hja)⟩
      have : j ≠ st.nextTask := fun hje => hjni (Or.inr hje)
      omega
  · intro e he; exact h6 e he
  · intro j hij hj; exact h7 j hij hj
  · intro j hj; exact h8 j hj
  · simp only [addTask, List.length_append, List.length_singleton]
    push_cast
    omega
  · simp only [addTask]
    have hsucc : ((st.active.length + 1 : Nat) : Int) ≤ B := by push_cast; omega
    rw [Nat.cast_max]
    exact max_le h10 hsucc

theorem coreInv_processBatchGo {R : Type} {B : Int} {N : Nat}
    {result : Nat → R} {i : Nat} :
    ∀ (fuel : Nat) (st : IterState R), CoreInv B N result i st →
      (st.active.length : Int) < B →
      CoreInv B N result i (processBatchGo B N fuel st) := by
  intro fuel
  induction fuel with
  | zero => intro st h _; simpa [processBatchGo] using h
  | succ fuel ih =>
      intro st h hlen
      simp only [processBatchGo]
      by_cases hnt : st.nextTask < N
      · simp only [hnt, if_true]
        have h' := coreInv_addTask h hlen hnt
        by_cases hfull : B ≤ ((addTask st).active.length : Int)
        · simp only [hfull, if_true]; exact h'
        · simp only [hfull, if_false]
          exact ih (addTask st) h' (lt_of_not_le hfull)
      · simp only [hnt, if_false]; exact h

theorem coreInv_processBatch {R : Type} {B : Int} {N : Nat}
    {result : Nat → R} {i : Nat} {st : IterState R}
    (h : CoreInv B N result i st) :
    CoreInv B N result i (processBatch B N st) := by
  unfold processBatch
  by_cases hlen : (st.active.length : Int) < B
  · simp only [hlen, if_true]; exact coreInv_processBatchGo N st h hlen
  · simp only [hlen, if_false]; exact h

/-- `_process_batch` only creates tasks: the queue, events and the
consumer-side observation fields are untouched. -/
theorem processBatchGo_proj {R : Type} (B : Int) (N : Nat) :
    ∀ (fuel : Nat) (st : IterState R),
      (processBatchGo B N fuel st).queue = st.queue ∧
      (processBatchGo B N fuel st).events = st.events ∧
      (processBatchGo B N fuel st).pending = st.pending ∧
      (processBatchGo B N fuel st).yielded = st.yielded ∧
      (processBatchGo B N fuel st).popped = st.popped ∧
      (processBatchGo B N fuel st).pendingTrace = st.pendingTrace := by
  intro fuel
  induction fuel with
  | zero => intro st; simp [processBatchGo]
  | succ fuel ih =>
      intro st
      simp only [processBatchGo]
      by_cases hnt : st.nextTask < N
      · simp only [hnt, if_true]
        by_cases hfull : B ≤ ((addTask st).active.length : Int)
        · simp only [hfull, if_true]; simp [addTask]
        · simp only [hfull, if_false]
          simpa [addTask] using ih (addTask st)
      · simp [hnt]

theorem processBatch_proj {R : Type} (B : Int) (N : Nat) (st : IterState R) :
    (processBatch B N st).queue = st.queue ∧
    (processBatch B N st).events = st.events ∧
    (processBatch B N st).pending = st.pending ∧
    (processBatch B N st).yielded = st.yielded ∧
    (processBatch B N st).popped = st.popped ∧
    (processBatch B N st).pendingTrace = st.pendingTrace := by
  unfold processBatch
  by_cases hlen : (st.active.length : Int) < B
  · simp only [hlen, if_true]; exact processBatchGo_proj B N N st
  · simp [hlen]

theorem iterInv_processBatch {R : Type} {B : Int} {N : Nat}
    {result : Nat → R} {i : Nat} {st : IterState R}
    (h : IterInv B N result i st) :
    IterInv B N result i (processBatch B N st) := by
  obtain ⟨hc, hp, hy, ho, ht⟩ := h
  obtain ⟨e1, e2, e3, e4, e5, e6⟩ := processBatch_proj (R := R) B N st
  exact ⟨coreInv_processBatch hc, by rw [e3, hp], by rw [e4, hy],
    by rw [e5, ho], by rw [e6, ht]⟩

theorem batchFull_processBatchGo {R : Type} (B : Int) (N : Nat) :
    ∀ (fuel : Nat) (st : IterState R), N - st.nextTask ≤ fuel →
      BatchFull B N (processBatchGo B N fuel st) := by
  intro fuel
  induction fuel with
  | zero =>
      intro st hfuel
      simp only [processBatchGo]
      exact Or.inr (by omega)
  | succ fuel ih =>
      intro st hfuel
      simp only [processBatchGo]
      by_cases hnt : st.nextTask < N
      · simp only [hnt, if_true]
        by_cases hfull : B ≤ ((addTask st).active.length : Int)
        · simp only [hfull, if_true]; exact Or.inl hfull
        · simp only [hfull, if_false]
          exact ih (addTask st) (by simp [addTask]; omega)
      · simp only [hnt, if_false]
        exact Or.inr (by omega)

theorem batchFull_processBatch {R : Type} (B : Int) (N : Nat)
    (st : IterState R) : BatchFull B N (processBatch B N st) := by
  unfold processBatch
  by_cases hlen : (st.active.length : Int) < B
  · simp only [hlen, if_true]
    exact batchFull_processBatchGo B N N st (Nat.sub_le _ _)
  · simp only [hlen, if_false]
    exact Or.inl (le_of_not_lt hlen)

theorem pickTask_mem {R : Type} {st : IterState R} (hne : st.active ≠ [])
    (k : Nat) : pickTask st k ∈ st.active := by
  have hpos : 0 < st.active.length := List.length_pos.mpr hne
  have hm : k % st.active.length < st.active.length := Nat.mod_lt _ hpos
  unfold pickTask
  rw [List.getD_eq_getElem?_getD, List.getElem?_eq_getElem hm, Option.getD_some]
  exact List.getElem_mem _

theorem completeOne_proj {R : Type} (result : Nat → R) (k : Nat)
    (st : IterState R) :
    (completeOne result k st).pending = st.pending ∧
    (completeOne result k st).yielded = st.yielded ∧
    (completeOne result k st).popped = st.popped ∧
    (completeOne result k st).pendingTrace = st.pendingTrace ∧
    (completeOne result k st).maxActive = st.maxActive ∧
    (completeOne result k st).nextTask = st.nextTask := by
  simp [completeOne]

theorem coreInv_completeOne {R : Type} {B : Int} {N : Nat}
    {result : Nat → R} {i k : Nat} {st : IterState R}
    (h : CoreInv B N result i st) (hne : st.active ≠ []) :
    CoreInv B N result i (completeOne result k st) := by
  obtain ⟨h1, h2, h3, h4, h5, h6, h7, h8, h9, h10⟩ := h
  have ha : pickTask st k ∈ st.active := pickTask_mem hne k
  set a := pickTask st k with hadef
  have haev : a ∉ st.events := fun hmem => ((h4 a).mp hmem).2 ha
  have hakeys : a ∉ st.queue.map Prod.fst := by
    intro hmem
    obtain ⟨e, he, hfst⟩ := List.mem_map.mp hmem
    exact haev (hfst ▸ (h6 e he).2.2)
  refine ⟨h1, h2.erase a, ?_, ?_, ?_, ?_, ?_, ?_, ?_, h10⟩
  · intro j hj
    exact h3 j (List.erase_subset _ _ hj)
  · intro j
    simp only [completeOne, List.mem_cons]
    by_cases hja : j = a
    · subst hja
      constructor
      · intro _
        exact ⟨(h3 a ha).2, fun hmem => ((h2.mem_erase_iff).mp hmem).1 rfl⟩
      · intro _; exact Or.inl rfl
    · constructor
      · rintro (rfl | hj)
        · exact absurd rfl hja
        · have := (h4 j).mp hj
          exact ⟨this.1, fun hmem => this.2 (List.erase_subset _ _ hmem)⟩
      · rintro ⟨hjlt, hjni⟩
        refine Or.inr ((h4 j).mpr ⟨hjlt, fun hmem => hjni ?_⟩)
        exact (List.mem_erase_of_ne hja).mpr hmem
  · simp only [completeOne, List.map_append, List.map_cons, List.map_nil]
    have hperm : (st.queue.map Prod.fst ++ [a]).Perm
        (a :: st.queue.map Prod.fst) := List.perm_append_singleton a _
    exact hperm.nodup_iff.mpr (List.nodup_cons.mpr ⟨hakeys, h5⟩)
  · intro e he
    simp only [completeOne, List.mem_append, List.mem_singleton] at he
    rcases he with he | he
    · obtain ⟨hp, hle, hev⟩ := h6 e he
      exact ⟨hp, hle, List.mem_cons_of_mem _ hev⟩
    · subst he
      exact ⟨rfl, (h3 a ha).1, List.mem_cons_self _ _⟩
  · intro j hij hj
    simp only [completeOne, List.mem_cons] at hj
    simp only [completeOne, List.mem_append, List.mem_singleton]
    rcases hj with rfl | hj
    · exact Or.inr rfl
    · exact Or.inl (h7 j hij hj)
  · intro j hj
    exact List.mem_cons_of_mem _ (h8 j hj)
  · simp only [completeOne]
    calc ((st.active.erase a).length : Int)
        ≤ (st.active.length : Int) := by
          exact_mod_cast (List.erase_sublist a _).length_le
      _ ≤ B := h9

theorem completeOne_active_length {R : Type} {result : Nat → R} {k : Nat}
    {st : IterState R} (hne : st.active ≠ []) :
    (completeOne result k st).active.length + 1 = st.active.length := by
  have ha : pickTask st k ∈ st.active := pickTask_mem hne k
  have hpos : 0 < st.active.length := List.length_pos.mpr hne
  simp only [completeOne]
  rw [List.length_erase_of_mem ha]
  omega

theorem completeOne_event_or_active {R : Type} {result : Nat → R} {k i : Nat}
    {st : IterState R} (hi : i ∈ st.active) :
    i ∈ (completeOne result k st).events ∨
    i ∈ (completeOne result k st).active := by
  by_cases hia : i = pickTask st k
  · subst hia
    exact Or.inl (List.mem_cons_self _ _)
  · right
    simp only [completeOne]
    exact (List.mem_erase_of_ne hia).mpr hi

/-- During `await event.wait()` for index `i`, active tasks complete one
by one; each completion removes a task, so if `i` is completed or active
the wait terminates with `i`'s event set, the invariant preserved, and
the observation fields untouched. -/
theorem waitEvent_ok {R : Type} {B : Int} {N : Nat} {result : Nat → R}
    {sched : Nat → Nat} {i : Nat} :
    ∀ (fuel : Nat) (t : Nat) (st : IterState R), CoreInv B N result i st →
      (i ∈ st.events ∨ i ∈ st.active) → st.active.length < fuel →
      ∃ t1 st1, waitEvent result sched i fuel t st = some (t1, st1) ∧
        CoreInv B N result i st1 ∧ i ∈ st1.events ∧
        st1.pending = st.pending ∧ st1.yielded = st.yielded ∧
        st1.popped = st.popped ∧ st1.pendingTrace = st.pendingTrace := by
  intro fuel
  induction fuel with
  | zero => intro t st _ _ hlen; omega
  | succ fuel ih =>
      intro t st hc hia hlen
      by_cases hev : i ∈ st.events
      · exact ⟨t, st, by simp [waitEvent, hev], hc, hev, rfl, rfl, rfl, rfl⟩
      · have hact : i ∈ st.active := hia.resolve_left hev
        have hne : st.active ≠ [] := List.ne_nil_of_mem hact
        have hemp : st.active.isEmpty = false := by
          simpa [List.isEmpty_iff] using hne
        have hc' := coreInv_completeOne (k := sched t) hc hne
        have hia' := @completeOne_event_or_active R result (sched t) i st hact
        have hlen' : (completeOne result (sched t) st).active.length < fuel := by
          have := @completeOne_active_length R result (sched t) st hne
          omega
        obtain ⟨t1, st1, heq, h1, h2, h3, h4, h5, h6⟩ :=
          ih (t + 1) (completeOne result (sched t) st) hc' hia' hlen'
        obtain ⟨p1, p2, p3, p4, _, _⟩ :=
          completeOne_proj result (sched t) st
        refine ⟨t1, st1, ?_, h1, h2, ?_, ?_, ?_, ?_⟩
        · simpa [waitEvent, hev, hemp] using heq
        · rw [h3, p1]
        · rw [h4, p2]
        · rw [h5, p3]
        · rw [h6, p4]

theorem popMin_eq_none_iff {R : Type} (q : List (Nat × R)) :
    popMin q = none ↔ q = [] := by
  cases q with
  | nil => simp [popMin]
  | cons e es =>
      simp only [popMin]
      cases h : popMin es with
      | none => simp
      | some me =>
          obtain ⟨m, rest⟩ := me
          constructor
          · intro hc
            by_cases hle : e.1 ≤ m.1 <;> simp [hle] at hc
          · intro hc; cases hc

/-- `popMin` returns an entry of the queue, of minimal priority, and the
rest of the queue up to permutation. -/
theorem popMin_spec {R : Type} :
    ∀ (q : List (Nat × R)) (e : Nat × R) (q' : List (Nat × R)),
      popMin q = some (e, q') →
      e ∈ q ∧ (∀ x ∈ q, e.1 ≤ x.1) ∧ q.Perm (e :: q') := by
  intro q
  induction q with
  | nil => intro e q' h; simp [popMin] at h
  | cons x xs ih =>
      intro e q' h
      simp only [popMin] at h
      cases hxs : popMin xs with
      | none =>
          rw [hxs] at h
          cases xs with
          | nil =>
              simp only [Option.some.injEq, Prod.mk.injEq] at h
              obtain ⟨rfl, rfl⟩ := h
              refine ⟨List.mem_singleton_self _, ?_, by simp⟩
              intro y hy
              rw [List.mem_singleton.mp hy]
          | cons z zs => exact absurd ((popMin_eq_none_iff _).mp hxs) (by simp)
      | some me =>
          obtain ⟨m, rest⟩ := me
          rw [hxs] at h
          obtain ⟨hm, hmin, hperm⟩ := ih m rest hxs
          by_cases hle : x.1 ≤ m.1
          · simp only [hle, if_true, Option.some.injEq, Prod.mk.injEq] at h
            obtain ⟨rfl, rfl⟩ := h
            refine ⟨List.mem_cons_self _ _, ?_, List.Perm.refl _⟩
            intro y hy
            rcases List.mem_cons.mp hy with rfl | hy
            · exact le_refl _
            · exact le_trans hle (hmin y hy)
          · simp only [hle, if_false, Option.some.injEq, Prod.mk.injEq] at h
            obtain ⟨rfl, rfl⟩ := h
            refine ⟨List.mem_cons_of_mem _ hm, ?_, ?_⟩
            · intro y hy
              rcases List.mem_cons.mp hy with rfl | hy
              · omega
              · exact hmin y hy
            · exact (hperm.cons x).trans (List.Perm.swap m x rest)

/-- The load-bearing pop step: at consumer position `i`, once event `i`
is set, entry `i` is in the queue and every queued entry has index
`≥ i`, so the pop returns exactly `(i, result i)`; the remaining queue
supports the invariant at position `i + 1` for any state that keeps the
control fields. -/
theorem coreInv_pop {R : Type} {B : Int} {N : Nat} {result : Nat → R}
    {i : Nat} {st : IterState R} (hc : CoreInv B N result i st)
    (hev : i ∈ st.events) :
    ∃ q', popMin st.queue = some ((i, result i), q') ∧
      ∀ st' : IterState R, st'.nextTask = st.nextTask →
        st'.active = st.active → st'.events = st.events →
        st'.queue = q' → st'.maxActive = st.maxActive →
        CoreInv B N result (i + 1) st' := by
  obtain ⟨h1, h2, h3, h4, h5, h6, h7, h8, h9, h10⟩ := hc
  have hmem : (i, result i) ∈ st.queue := h7 i (le_refl i) hev
  have hne : st.queue ≠ [] := List.ne_nil_of_mem hmem
  obtain ⟨⟨e, q'⟩, hpop⟩ : ∃ p, popMin st.queue = some p := by
    cases hp : popMin st.queue with
    | none => exact absurd ((popMin_eq_none_iff _).mp hp) hne
    | some p => exact ⟨p, rfl⟩
  obtain ⟨hein, hmin, hperm⟩ := popMin_spec st.queue e q' hpop
  have hi1 : i ≤ e.1 := (h6 e hein).2.1
  have hi2 : e.1 ≤ i := hmin (i, result i) hmem
  have hefst : e.1 = i := le_antisymm hi2 hi1
  have hesnd : e.2 = result i := by
    have := (h6 e hein).1
    rw [this, hefst]
  have heeq : e = (i, result i) := Prod.ext hefst hesnd
  subst heeq
  have hkeys : (st.queue.map Prod.fst).Perm (i :: q'.map Prod.fst) := by
    simpa using hperm.map Prod.fst
  have hkn : (i :: q'.map Prod.fst).Nodup := hkeys.nodup_iff.mp h5
  have hinotk : i ∉ q'.map Prod.fst := (List.nodup_cons.mp hkn).1
  have hq'sub : ∀ x ∈ q', x ∈ st.queue := fun x hx =>
    hperm.mem_iff.mpr (List.mem_cons_of_mem _ hx)
  refine ⟨q', hpop, ?_⟩
  intro st' e1 e2 e3 e4 e5
  refine ⟨e1 ▸ h1, e2 ▸ h2, ?_, ?_, ?_, ?_, ?_, ?_, ?_, ?_⟩
  · intro j hj
    rw [e2] at hj
    have hj' := h3 j hj
    have hji : j ≠ i := by
      intro hje
      exact ((h4 i).mp hev).2 (hje ▸ hj)
    rw [e1]
    omega
  · intro j
    rw [e3, e2, e1]
    exact h4 j
  · rw [e4]
    exact (List.nodup_cons.mp hkn).2
  · intro x hx
    rw [e4] at hx
    have hxq := hq'sub x hx
    obtain ⟨hp, hle, hevx⟩ := h6 x hxq
    have hxi : x.1 ≠ i := by
      intro hxe
      exact hinotk (hxe ▸ List.mem_map_of_mem Prod.fst hx)
    rw [e3]
    exact ⟨hp, by omega, hevx⟩
  · intro j hij hj
    rw [e3] at hj
    rw [e4]
    have hjq : (j, result j) ∈ st.queue := h7 j (by omega) hj
    have := hperm.mem_iff.mp hjq
    rcases List.mem_cons.mp this with hc | hc
    · exact absurd (congrArg Prod.fst hc) (by simp; omega)
    · exact hc
  · intro j hj
    rw [e3]
    rcases Nat.lt_succ_iff_lt_or_eq.mp hj with hj | rfl
    · exact h8 j hj
    · exact hev
  · rw [e2]; exact h9
  · rw [e5]; exact h10

/-- When the consumer is about to wait on event `i` (with `i < N`) right
after a `_process_batch` call, task `i` is either already completed or
in the active set: the double refill guarantees progress. -/
theorem entry_ready {R : Type} {B : Int} {N : Nat} {result : Nat → R}
    {i : Nat} {st : IterState R} (hB : 1 ≤ B)
    (hc : CoreInv B N result i st) (hbf : BatchFull B N st) (hiN : i < N) :
    i ∈ st.events ∨ i ∈ st.active := by
  by_cases hev : i ∈ st.events
  · exact Or.inl hev
  · right
    by_contra hact
    have hnt : st.nextTask ≤ i := by
      by_contra hlt
      exact hev ((hc.2.2.2.1 i).mpr ⟨by omega, hact⟩)
    rcases hbf with hfull | hdone
    · have hpos : 0 < st.active.length := by
        by_contra hz
        have : st.active.length = 0 := by omega
        rw [this] at hfull
        omega
      obtain ⟨a, hamem⟩ := List.exists_mem_of_length_pos hpos
      have := hc.2.2.1 a hamem
      omega
    · omega

/-- Main induction on the consumption loop: the invariant carries from
position `i` to `N`, and with per-wait fuel `N + 1` the loop always
terminates with the full invariant at `N`. -/
theorem consumeLoop_ok {R : Type} {B : Int} {N : Nat} {result : Nat → R}
    {sched : Nat → Nat} (hB : 1 ≤ B) :
    ∀ (n i t : Nat) (st : IterState R), i + n = N →
      IterInv B N result i st → BatchFull B N st →
      ∃ stf, consumeLoop B N result sched (N + 1) (List.range' i n) t st =
          some stf ∧ IterInv B N result N stf := by
  intro n
  induction n with
  | zero =>
      intro i t st hin hinv _
      have hiN : i = N := by omega
      subst hiN
      exact ⟨st, by simp [List.range', consumeLoop], hinv⟩
  | succ n ih =>
      intro i t st hin hinv hbf
      have hiN : i < N := by omega
      obtain ⟨hcore, hpend, hyield, hpopd, htrace⟩ := hinv
      have hready := entry_ready hB hcore hbf hiN
      have hflen : st.active.length < N + 1 :=
        Nat.lt_succ_of_le (coreInv_active_length_le hcore)
      obtain ⟨t1, st1, hwait, hc1, hev1, w1, w2, w3, w4⟩ :=
        @waitEvent_ok R B N result sched i (N + 1) t st hcore hready hflen
      have hc2 : CoreInv B N result i (processBatch B N st1) :=
        coreInv_processBatch hc1
      obtain ⟨p1, p2, p3, p4, p5, p6⟩ := processBatch_proj B N st1
      have hev2 : i ∈ (processBatch B N st1).events := p2 ▸ hev1
      obtain ⟨q', hpop, hbuild⟩ := coreInv_pop hc2 hev2
      set st2 := processBatch B N st1 with hst2
      set base := { st2 with queue := q', popped := st2.popped ++ [(i, result i)] }
        with hbase
      have hcbase : CoreInv B N result (i + 1) base :=
        hbuild base rfl rfl rfl rfl rfl
      have hc3 : CoreInv B N result (i + 1) (processBatch B N base) :=
        coreInv_processBatch hcbase
      obtain ⟨r1, r2, r3, r4, r5, r6⟩ := processBatch_proj B N base
      set st3 := processBatch B N base with hst3
      have hbf3 : BatchFull B N st3 := batchFull_processBatch B N base
      have hpend2 : st2.pending = N - i := by rw [p3, w1, hpend]
      have hpend3 : st3.pending = N - i := by rw [r3]; exact hpend2
      set st4 := { st3 with
        yielded := st3.yielded ++ [result i],
        pending := st3.pending - 1,
        pendingTrace := st3.pendingTrace ++ [st3.pending - 1] } with hst4
      have hc4 : CoreInv B N result (i + 1) st4 := hc3
      have hbf4 : BatchFull B N st4 := hbf3
      have hinv4 : IterInv B N result (i + 1) st4 := by
        refine ⟨hc4, ?_, ?_, ?_, ?_⟩
        · show st3.pending - 1 = N - (i + 1)
          omega
        · show st3.yielded ++ [result i] = (List.range (i + 1)).map result
          rw [r4, p4, w2, hyield, List.range_succ, List.map_append, List.map_singleton]
        · show st3.popped = (List.range (i + 1)).map fun j => (j, result j)
          rw [r5]
          show st2.popped ++ [(i, result i)] = _
          rw [p5, w3, hpopd, List.range_succ, List.map_append, List.map_singleton]
        · show st3.pendingTrace ++ [st3.pending - 1] =
            (List.range (i + 1)).map fun k => N - (k + 1)
          rw [r6, p6, w4, htrace, List.range_succ, List.map_append,
            List.map_singleton, hpend3]
          have hx : N - i - 1 = N - (i + 1) := by omega
          rw [hx]
      obtain ⟨stf, hloop, hfin⟩ := ih (i + 1) t1 st4 (by omega) hinv4 hbf4
      refine ⟨stf, ?_, hfin⟩
      rw [List.range'_succ]
      simp only [consumeLoop, hwait]
      rw [← hst2]
      simp only [hpop]
      exact hloop

/-- A whole run with `1 ≤ B` succeeds with per-wait fuel `N + 1` and
ends in the invariant at position `N`. -/
theorem runIterator_ok {R : Type} (B : Int) (N : Nat) (result : Nat → R)
    (sched : Nat → Nat) (hB : 1 ≤ B) :
    ∃ stf, runIterator B N result sched (N + 1) = some stf ∧
      IterInv B N result N stf := by
  have h0 : IterInv B N result 0 (initState R N) :=
    iterInv_init B N result (by omega)
  have h1 : IterInv B N result 0 (processBatch B N (initState R N)) :=
    iterInv_processBatch h0
  have hbf : BatchFull B N (processBatch B N (initState R N)) :=
    batchFull_processBatch B N (initState R N)
  have := @consumeLoop_ok R B N result sched hB N 0 0 _ (by omega) h1 hbf
  simpa [runIterator, List.range_eq_range'] using this

/-- With a non-positive bound no task is ever created
(`len(self._tasks) < self.batch_size` is never true), so with at least
one request the consumer waits forever on event 0: the run makes no
progress for any amount of fuel. -/
theorem runIterator_nonpos_deadlock {R : Type} {B : Int} (hB : B ≤ 0)
    {N : Nat} (hN : 1 ≤ N) (result : Nat → R) (sched : Nat → Nat)
    (fuel : Nat) : runIterator B N result sched fuel = none := by
  obtain ⟨n, rfl⟩ : ∃ n, N = n + 1 := ⟨N - 1, by omega⟩
  have hpb : processBatch B (n + 1) (initState R (n + 1)) =
      initState R (n + 1) := by
    unfold processBatch
    have hng : ¬ (((initState R (n + 1)).active.length : Int) < B) := by
      simp only [initState, List.length_nil, Nat.cast_zero]
      omega
    simp [hng]
  unfold runIterator
  rw [hpb, List.range_succ_eq_map]
  cases fuel with
  | zero => simp [consumeLoop, waitEvent]
  | succ f => simp [consumeLoop, waitEvent, initState]

/-- For `B ≤ 0` the first `_process_batch` leaves the state unchanged
whatever it is, because the entry guard is never satisfied. -/
theorem processBatch_nonpos {R : Type} {B : Int} (hB : B ≤ 0) (N : Nat)
    (st : IterState R) : processBatch B N st = st := by
  unfold processBatch
  have hng : ¬ ((st.active.length : Int) < B) := by
    have : (0 : Int) ≤ (st.active.length : Int) := Int.ofNat_nonneg _
    omega
  simp [hng]

/-- The maxActive component of the invariant, extracted. -/
theorem iterInv_maxActive {R : Type} {B : Int} {N : Nat} {result : Nat → R}
    {i : Nat} {st : IterState R} (h : IterInv B N result i st) :
    (st.maxActive : Int) ≤ B :=
  h.1.2.2.2.2.2.2.2.2.2

/-- Claim C1: for every request index `i`, the task for `i` puts its
`(i, Response)` pair into the priority queue strictly before it sets
completion signal `i` (the pair immediately precedes the signal at the
end of the task's action trace, in every cache configuration); and
during in-order consumption, for every schedule of task completions,
the pop performed after waiting on signal `i` returns exactly the entry
with index `i`, never an entry with a different index (the recorded pop
sequence is exactly `(0, result 0), …, (N-1, result (N-1))`). -/
theorem push_precedes_signal_and_pop_exact {R : Type} (B : Int) (N : Nat)
    (hB : 1 ≤ B) (hasCache hit : Bool) (cached fetched : R) (i : Nat)
    (result : Nat → R) (sched : Nat → Nat) :
    (∃ pre, aprocessTrace hasCache hit cached fetched i =
      pre ++ [TaskAction.queuePut i (aprocessResult hasCache hit cached fetched),
              TaskAction.eventSet i]) ∧
    Option.map IterState.popped (runIterator B N result sched (N + 1)) =
      some ((List.range N).map fun j => (j, result j)) := by
  constructor
  · cases hasCache with
    | false => exact ⟨[TaskAction.fetchCall], rfl⟩
    | true =>
        cases hit with
        | true =>
            exact ⟨[TaskAction.cacheHas, TaskAction.lockAcquire,
              TaskAction.cacheGet, TaskAction.lockRelease], rfl⟩
        | false =>
            exact ⟨[TaskAction.cacheHas, TaskAction.fetchCall,
              TaskAction.lockAcquire, TaskAction.cacheSet fetched,
              TaskAction.lockRelease], rfl⟩
  · obtain ⟨stf, hrun, hinv⟩ := runIterator_ok B N result sched hB
    rw [hrun, Option.map_some', hinv.2.2.2.1]

theorem push_precedes_signal_and_pop_exact_witness :
    (1 : Int) ≤ 1 ∧
    ((∃ pre, aprocessTrace true true (5 : Nat) 7 0 =
      pre ++ [TaskAction.queuePut 0 (aprocessResult true true (5 : Nat) 7),
              TaskAction.eventSet 0]) ∧
    Option.map IterState.popped
        (runIterator 1 2 (fun j => j + 10) (fun t => t) 3) =
      some ((List.range 2).map fun j => (j, j + 10))) :=
  ⟨by decide, push_precedes_signal_and_pop_exact 1 2 (by decide) true true 5 7 0
    (fun j => j + 10) (fun t => t)⟩

/-- Claim C2: for every request list of length `N` and concurrency bound
`B` with `1 ≤ B ≤ N`, iterating yields exactly `N` responses, in
strictly increasing submission-index order — the yielded sequence is
exactly `result 0, …, result (N-1)` — for every completion schedule. -/
theorem yields_all_in_index_order {R : Type} (B : Int) (N : Nat)
    (hB1 : 1 ≤ B) (_hBN : B ≤ (N : Int)) (result : Nat → R)
    (sched : Nat → Nat) :
    ∃ stf, runIterator B N result sched (N + 1) = some stf ∧
      stf.yielded = (List.range N).map result ∧ stf.yielded.length = N := by
  obtain ⟨stf, hrun, hinv⟩ := runIterator_ok B N result sched hB1
  refine ⟨stf, hrun, hinv.2.2.1, ?_⟩
  rw [hinv.2.2.1, List.length_map, List.length_range]

theorem yields_all_in_index_order_witness :
    (1 : Int) ≤ 2 ∧ (2 : Int) ≤ (3 : Nat) ∧
    (∃ stf, runIterator 2 3 (fun j => j * 100) (fun t => t + 1) 4 = some stf ∧
      stf.yielded = (List.range 3).map (fun j => j * 100) ∧
      stf.yielded.length = 3) :=
  ⟨by decide, by decide,
    yields_all_in_index_order 2 3 (by decide) (by decide)
      (fun j => j * 100) (fun t => t + 1)⟩

/-- Claim C3: the number of simultaneously active fetch tasks never
exceeds `batch_size`: `_process_batch` is a no-op whenever the active
set already has at least `batch_size` members (it only adds under the
guard), completion removes the finished task from the active set, and
over any whole run with any schedule the recorded maximum size of the
active set is at most `B`. -/
theorem active_tasks_bounded {R : Type} (B : Int) (N : Nat) (hB : 1 ≤ B)
    (k : Nat) (result : Nat → R) (sched : Nat → Nat) (st : IterState R) :
    (B ≤ (st.active.length : Int) → processBatch B N st = st) ∧
    (completeOne result k st).active = st.active.erase (pickTask st k) ∧
    (∃ stf, runIterator B N result sched (N + 1) = some stf ∧
      (stf.maxActive : Int) ≤ B) := by
  refine ⟨?_, rfl, ?_⟩
  · intro hfull
    unfold processBatch
    simp [not_lt.mpr hfull]
  · obtain ⟨stf, hrun, hinv⟩ := runIterator_ok B N result sched hB
    exact ⟨stf, hrun, iterInv_maxActive hinv⟩

theorem active_tasks_bounded_witness :
    (1 : Int) ≤ 2 ∧
    ((2 ≤ (((initState Nat 7).active.length : Int)) →
        processBatch 2 7 (initState Nat 7) = initState Nat 7) ∧
    (completeOne (fun j => j) 0 (initState Nat 7)).active =
      (initState Nat 7).active.erase (pickTask (initState Nat 7) 0) ∧
    (∃ stf, runIterator 2 7 (fun j => j) (fun t => 2 * t) 8 = some stf ∧
      (stf.maxActive : Int) ≤ 2)) :=
  ⟨by decide, active_tasks_bounded 2 7 (by decide) 0 (fun j => j)
    (fun t => 2 * t) (initState Nat 7)⟩

/-- Claim C7: `pending` starts at the number of requests, decreases by
exactly 1 at each yield (the values observed after the successive yields
are `N-1, N-2, …, 0`), and is 0 exactly when iteration ends normally;
an iterator over zero requests reports 0 pending immediately and yields
no items. -/
theorem pending_countdown {R : Type} (B : Int) (N : Nat) (hB : 1 ≤ B)
    (result : Nat → R) (sched : Nat → Nat) :
    (initState R N).pending = N ∧
    (∃ stf, runIterator B N result sched (N + 1) = some stf ∧
      stf.pendingTrace = (List.range N).map (fun k => N - (k + 1)) ∧
      stf.pending = 0) ∧
    (initState R 0).pending = 0 ∧
    (∃ st0, runIterator B 0 result sched 1 = some st0 ∧ st0.yielded = []) := by
  refine ⟨rfl, ?_, rfl, ?_⟩
  · obtain ⟨stf, hrun, hinv⟩ := runIterator_ok B N result sched hB
    refine ⟨stf, hrun, hinv.2.2.2.2, ?_⟩
    rw [hinv.2.1]
    omega
  · obtain ⟨st0, hrun, hinv⟩ := runIterator_ok B 0 result sched hB
    exact ⟨st0, hrun, by rw [hinv.2.2.1]; rfl⟩

theorem pending_countdown_witness :
    (1 : Int) ≤ 3 ∧
    ((initState Nat 4).pending = 4 ∧
    (∃ stf, runIterator 3 4 (fun j => j) (fun t => t) 5 = some stf ∧
      stf.pendingTrace = (List.range 4).map (fun k => 4 - (k + 1)) ∧
      stf.pending = 0) ∧
    (initState Nat 0).pending = 0 ∧
    (∃ st0, runIterator 3 0 (fun j => j) (fun t => t) 1 = some st0 ∧
      st0.yielded = [])) :=
  ⟨by decide, pending_countdown 3 4 (by decide) (fun j => j) (fun t => t)⟩

/-- Claim C4: `_afetch` never raises past its boundary — a transport
failure yields the degraded response with status 0, ok false, reason the
stringified error and empty text and url; and when body handling
(decoding) fails, the outer handler produces the same degraded shape
with the decode error as reason.  Totality of `afetch` (it returns a
`Response` for every outcome) is the never-raises property. -/
theorem afetch_never_raises_degraded_response {β : Type}
    (knownEnc : String → Bool) (decodeW : String → β → String)
    (detect : β → Option String) (logErr : Bool) (err : String)
    (reply : TransportReply β) (e : String)
    (hdec : decodeContent knownEnc decodeW detect reply.encoding
      reply.content = Except.error e) :
    afetch knownEnc decodeW detect logErr (FetchOutcome.failure err) =
      { status := 0, reason := err, ok := false, text := "", url := "" } ∧
    afetch knownEnc decodeW detect logErr (FetchOutcome.success reply) =
      { status := 0, reason := e, ok := false, text := "", url := "" } := by
  constructor
  · rfl
  · simp [afetch, hdec]

/-- A concrete transport reply whose reported encoding is unknown and
whose detector also fails, used to exercise the decode-error path. -/
def strangeReply : TransportReply Nat :=
  { status := 200, reason := "", ok := true, content := 0,
    encoding := some "x-strange", url := "" }

theorem afetch_never_raises_degraded_response_witness :
    decodeContent (fun _ => false) (fun _ _ => "") (fun _ => none)
        strangeReply.encoding strangeReply.content =
      Except.error (lookupErrorText utf8Name) ∧
    (afetch (β := Nat) (fun _ => false) (fun _ _ => "") (fun _ => none) false
        (FetchOutcome.failure (lookupErrorText utf8Name)) =
      { status := 0, reason := lookupErrorText utf8Name, ok := false,
        text := "", url := "" } ∧
    afetch (fun _ => false) (fun _ _ => "") (fun _ => none) false
        (FetchOutcome.success strangeReply) =
      { status := 0, reason := lookupErrorText utf8Name, ok := false,
        text := "", url := "" }) :=
  ⟨rfl, afetch_never_raises_degraded_response (fun _ => false) (fun _ _ => "")
    (fun _ => none) false (lookupErrorText utf8Name) strangeReply
    (lookupErrorText utf8Name) rfl⟩

/-- Counterexample to claim C5: on a cache hit, `_aprocess_request`
calls `self.cache.has(request)` in the `if` condition, outside the
`async with self._lock` block — `cacheHas` occurs in the task trace but
not among the actions executed while the lock is held. -/
theorem cache_has_outside_lock :
    TaskAction.cacheHas ∈ aprocessTrace true true (1 : Nat) 2 0 ∧
    TaskAction.cacheHas ∉
      lockedActions (aprocessTrace true true (1 : Nat) 2 0) false := by
  decide

/-- Claim C5 as amended: the `get` and `set` cache calls are executed
while holding the iterator's mutual-exclusion lock, but the `has` call
is executed outside the lock (it guards the `if`), in every cache
configuration. -/
theorem cache_get_set_under_lock_has_outside {R : Type}
    (hasCache hit : Bool) (cached fetched : R) (i : Nat) :
    (TaskAction.cacheGet ∈ aprocessTrace hasCache hit cached fetched i →
      TaskAction.cacheGet ∈
        lockedActions (aprocessTrace hasCache hit cached fetched i) false) ∧
    (∀ r : R, TaskAction.cacheSet r ∈ aprocessTrace hasCache hit cached fetched i →
      TaskAction.cacheSet r ∈
        lockedActions (aprocessTrace hasCache hit cached fetched i) false) ∧
    TaskAction.cacheHas ∉
      lockedActions (aprocessTrace hasCache hit cached fetched i) false := by
  cases hasCache <;> cases hit <;>
    simp [aprocessTrace, lockedActions]

theorem cache_get_set_under_lock_has_outside_witness :
    (TaskAction.cacheGet ∈ aprocessTrace true true (3 : Nat) 4 1 →
      TaskAction.cacheGet ∈
        lockedActions (aprocessTrace true true (3 : Nat) 4 1) false) ∧
    (∀ r : Nat, TaskAction.cacheSet r ∈ aprocessTrace true true (3 : Nat) 4 1 →
      TaskAction.cacheSet r ∈
        lockedActions (aprocessTrace true true (3 : Nat) 4 1) false) ∧
    TaskAction.cacheHas ∉
      lockedActions (aprocessTrace true true (3 : Nat) 4 1) false :=
  cache_get_set_under_lock_has_outside true true 3 4 1

/-- Claim C6: with a cache present, on a hit the fetch operation is
never invoked and the pushed response is the cached value; on a miss the
fetch operation runs and `set` stores exactly the fetched result, and
does so before the task signals completion (`cacheSet` precedes
`eventSet` in the trace).  In the source `_afetch` always returns
normally, so the fetch "succeeding" is its normal return. -/
theorem cache_policy {R : Type} (cached fetched : R) (i : Nat) :
    (TaskAction.fetchCall ∉ aprocessTrace true true cached fetched i ∧
     aprocessResult true true cached fetched = cached ∧
     ∀ r : R, TaskAction.cacheSet r ∉ aprocessTrace true true cached fetched i) ∧
    (TaskAction.fetchCall ∈ aprocessTrace true false cached fetched i ∧
     aprocessResult true false cached fetched = fetched ∧
     ∃ pre post, aprocessTrace true false cached fetched i =
        pre ++ [TaskAction.cacheSet fetched] ++ post ∧
        TaskAction.eventSet i ∈ post) := by
  refine ⟨⟨?_, rfl, ?_⟩, ⟨?_, rfl, ?_⟩⟩
  · simp [aprocessTrace]
  · intro r; simp [aprocessTrace]
  · simp [aprocessTrace]
  · exact ⟨[TaskAction.cacheHas, TaskAction.fetchCall, TaskAction.lockAcquire],
      [TaskAction.lockRelease, TaskAction.queuePut i fetched,
       TaskAction.eventSet i], rfl, by simp⟩

theorem cache_policy_witness :
    (TaskAction.fetchCall ∉ aprocessTrace true true (8 : Nat) 9 2 ∧
     aprocessResult true true (8 : Nat) 9 = 8 ∧
     ∀ r : Nat, TaskAction.cacheSet r ∉ aprocessTrace true true (8 : Nat) 9 2) ∧
    (TaskAction.fetchCall ∈ aprocessTrace true false (8 : Nat) 9 2 ∧
     aprocessResult true false (8 : Nat) 9 = 9 ∧
     ∃ pre post, aprocessTrace true false (8 : Nat) 9 2 =
        pre ++ [TaskAction.cacheSet 9] ++ post ∧
        TaskAction.eventSet 2 ∈ post) :=
  cache_policy 8 9 2

/-- Counterexample to claim C8: constructing a `ResponseIterator` with
`batch_size = 0` is not a construction-time error — `__init__` performs
no validation and returns a normally populated object — and iterating
one request with that bound then makes no progress (deadlock) instead
of failing fast. -/
theorem construction_accepts_nonpositive_batch_size :
    mkResponseIterator (α := Nat) [42] 0 =
      { num_requests := 1, pending := 1, batch_size := 0 } ∧
    runIterator (R := Nat) 0 1 (fun j => j) (fun _ => 0) 5 = none := by
  exact ⟨rfl, rfl⟩

/-- Claim C8 as amended: construction never validates `batch_size`
(any value, including non-positive ones, is accepted and stored as-is
with `pending = len(requests)`); with a non-positive bound and a
nonempty request list the subsequent iteration deadlocks — it yields
nothing and never terminates, for every schedule and any amount of
fuel — rather than failing fast; an empty request list is a trivial
empty iteration, not an error. -/
theorem nonpositive_batch_size_not_validated_deadlock {R α : Type}
    (B : Int) (hB : B ≤ 0) (N : Nat) (hN : 1 ≤ N) (requests : List α)
    (result : Nat → R) (sched : Nat → Nat) (fuel : Nat) :
    mkResponseIterator requests B =
      { num_requests := requests.length, pending := requests.length,
        batch_size := B } ∧
    runIterator B N result sched fuel = none ∧
    runIterator B 0 result sched fuel = some (initState R 0) := by
  refine ⟨rfl, runIterator_nonpos_deadlock hB hN result sched fuel, ?_⟩
  unfold runIterator
  rw [processBatch_nonpos hB]
  rfl

theorem nonpositive_batch_size_not_validated_deadlock_witness :
    (0 : Int) ≤ 0 ∧ 1 ≤ 1 ∧
    (mkResponseIterator (α := Nat) [42] 0 =
      { num_requests := 1, pending := 1, batch_size := 0 } ∧
    runIterator (R := Nat) 0 1 (fun j => j) (fun t => t) 3 = none ∧
    runIterator (R := Nat) 0 0 (fun j => j) (fun t => t) 3 =
      some (initState Nat 0)) :=
  ⟨by decide, by decide,
    nonpositive_batch_size_not_validated_deadlock 0 (by decide) 1 (by decide)
      [42] (fun j => j) (fun t => t) 3⟩

/-- An encoding name the detector can report but the codec registry
does not know (Python's codecs do not support EUC-TW, which chardet can
return). -/
def eucTwName : String := "EUC-TW"

/-- A transport reply with no reported encoding, whose body the
detector in the counterexample classifies as EUC-TW. -/
def eucTwReply : TransportReply Nat :=
  { status := 200, reason := "", ok := true, content := 0,
    encoding := none, url := "" }

/-- Counterexample to claim C9: when the reported encoding is missing
and the detector returns an encoding the codec registry does not know,
the claimed chain (`decodeContentSpec`) would produce the
replacement-decoded text, but the code's second decode
(`content.decode(encoding or "utf-8", errors="replace")`, line 275)
raises `LookupError` into the outer handler: `decodeContent` returns an
error, not the claimed text, and `_afetch` turns it into a degraded
response. -/
theorem detected_unknown_encoding_degrades :
    decodeContentSpec (fun s => s == utf8Name) (fun e _ => e)
        (fun _ => some eucTwName) none (0 : Nat) = eucTwName ∧
    decodeContent (fun s => s == utf8Name) (fun e _ => e)
        (fun _ => some eucTwName) none (0 : Nat) =
      Except.error (lookupErrorText eucTwName) ∧
    decodeContent (fun s => s == utf8Name) (fun e _ => e)
        (fun _ => some eucTwName) none (0 : Nat) ≠
      Except.ok (decodeContentSpec (fun s => s == utf8Name) (fun e _ => e)
        (fun _ => some eucTwName) none (0 : Nat)) ∧
    afetch (fun s => s == utf8Name) (fun e _ => e) (fun _ => some eucTwName)
        false (FetchOutcome.success eucTwReply) =
      { status := 0, reason := lookupErrorText eucTwName, ok := false,
        text := "", url := "" } := by
  refine ⟨rfl, rfl, ?_, rfl⟩
  intro h
  have h2 : decodeContent (fun s => s == utf8Name) (fun e _ => e)
      (fun _ => some eucTwName) none (0 : Nat) =
      Except.error (lookupErrorText eucTwName) := rfl
  rw [h2] at h
  exact nomatch h

/-- Claim C9 as amended: the body-decoding chain of `_afetch` follows
the spec's fallback — transport-reported encoding first; if missing
(`None`) or unknown, the detected encoding; if detection yields
nothing, utf-8 — whenever the detected encoding is known to the codec
registry (and utf-8 is known); if instead the detector reports an
encoding the registry does not know, the second decode raises
`LookupError` and the outer handler of `_afetch` produces a degraded
response in place of replacement-decoded text. -/
theorem decode_chain_matches_spec {β : Type} (knownEnc : String → Bool)
    (decodeW : String → β → String) (detect : β → Option String)
    (encoding : Option String) (content : β) (d : String) (logErr : Bool)
    (reply : TransportReply β) (hutf : knownEnc utf8Name = true) :
    ((∀ e, detect content = some e → knownEnc e = true) →
      decodeContent knownEnc decodeW detect encoding content =
        Except.ok (decodeContentSpec knownEnc decodeW detect encoding content)) ∧
    (decodeAttempt knownEnc decodeW encoding content = none →
      detect content = some d → knownEnc d = false →
      decodeContent knownEnc decodeW detect encoding content =
        Except.error (lookupErrorText d) ∧
      (reply.encoding = encoding → reply.content = content →
        afetch knownEnc decodeW detect logErr (FetchOutcome.success reply) =
          { status := 0, reason := lookupErrorText d, ok := false,
            text := "", url := "" })) := by
  constructor
  · intro hdet
    cases encoding with
    | none =>
        cases hd : detect content with
        | none => simp [decodeContent, decodeAttempt, decodeContentSpec, hd, hutf]
        | some e =>
            simp [decodeContent, decodeAttempt, decodeContentSpec, hd, hdet e hd]
    | some enc =>
        by_cases hk : knownEnc enc
        · simp [decodeContent, decodeAttempt, decodeContentSpec, hk]
        · cases hd : detect content with
          | none =>
              simp [decodeContent, decodeAttempt, decodeContentSpec, hd, hk, hutf]
          | some e =>
              simp [decodeContent, decodeAttempt, decodeContentSpec, hd, hk,
                hdet e hd]
  · intro hatt hd hkd
    have hdc : decodeContent knownEnc decodeW detect encoding content =
        Except.error (lookupErrorText d) := by
      simp [decodeContent, hatt, hd, hkd]
    refine ⟨hdc, ?_⟩
    intro he hc
    simp [afetch, he, hc, hdc]

theorem decode_chain_matches_spec_witness :
    (fun s : String => s == utf8Name) utf8Name = true ∧
    (((∀ e, (some eucTwName : Option String) = some e →
        (fun s : String => s == utf8Name) e = true) →
      decodeContent (fun s => s == utf8Name) (fun e _ => e)
          (fun _ => some eucTwName) none (0 : Nat) =
        Except.ok (decodeContentSpec (fun s => s == utf8Name) (fun e _ => e)
          (fun _ => some eucTwName) none (0 : Nat))) ∧
    (decodeAttempt (fun s => s == utf8Name) (fun e _ => e) none (0 : Nat) =
        none →
      (some eucTwName : Option String) = some eucTwName →
      (fun s : String => s == utf8Name) eucTwName = false →
      decodeContent (fun s => s == utf8Name) (fun e _ => e)
          (fun _ => some eucTwName) none (0 : Nat) =
        Except.error (lookupErrorText eucTwName) ∧
      (eucTwReply.encoding = none → eucTwReply.content = 0 →
        afetch (fun s => s == utf8Name) (fun e _ => e)
            (fun _ => some eucTwName) false
            (FetchOutcome.success eucTwReply) =
          { status := 0, reason := lookupErrorText eucTwName, ok := false,
            text := "", url := "" }))) :=
  ⟨by decide,
    decode_chain_matches_spec (fun s => s == utf8Name) (fun e _ => e)
      (fun _ => some eucTwName) none 0 eucTwName false eucTwReply (by decide)⟩

/-- Claim C10: the concurrency bound defaults to 5 when not given
(`batch_size: int = 5` in `__init__`). -/
theorem default_batch_size_five {α : Type} (requests : List α) :
    (mkResponseIteratorDefault requests).batch_size = 5 ∧
    defaultBatchSize = 5 :=
  ⟨rfl, rfl⟩

end Mure
